import Mathlib

/-!
Verification of the dataset-preparation and configuration-assembly pipeline
of the llama2 fine-tuning notebooks (`llama2-ptuning.ipynb`,
`llama2-lora-ft.ipynb`) and of the model-initialization script
(`scripts/init.sh`).

The notebook logic is embedded shallowly:

* an example record of the dataset is an association list from field names
  to string values, matching the JSON-lines rows the notebook reads and
  writes;
* the filter / rename / inject steps of the p-tuning notebook's data cell
  are embedded one-for-one (`keepExample`, `renameField`, `set_column`,
  `transform`);
* the train/validation split loops (`if index < int(0.9*len(ds))`) are
  embedded together with an exact integer model of the IEEE-754 binary64
  computation `int(0.9 * N)` (`intTimes09`);
* serialization (`json.dumps(item) + "\n"` per example) and line-by-line
  parsing are embedded over lists of characters (`dumps`, `serializeFile`,
  `loads`, `parseFile`);
* the configuration assembler's path-qualified override is embedded as a
  nested-document patcher (`setPath`), and `init.sh`'s existence guard as a
  function from the observable file state to the actions it executes.
-/

namespace Llama2FT

/-- One dataset example: an ordered association list from field name to
string value, as read from / written to the JSON-lines dataset files. -/
abbrev Example := List (String × String)

/-- Boolean test that the character list `s` starts with the character list
`p`; the embedding of Python's `str.startswith`. -/
def charsStartWith : List Char → List Char → Bool
  | _, [] => true
  | [], _ :: _ => false
  | c :: cs, p :: ps => c == p && charsStartWith cs ps

/-- Python `s.startswith(pre)` on the two strings. -/
def pyStartsWith (s pre : String) : Bool :=
  charsStartWith s.data pre.data

/-- The filter predicate of the p-tuning notebook:
`lambda example: example["category"].startswith("closed_qa")`. An example
without a `category` field is not kept. -/
def keepExample (e : Example) : Bool :=
  match List.lookup "category" e with
  | some v => pyStartsWith v "closed_qa"
  | none => false

/-- Modelled from the spec: the per-example field rename underlying the
notebook's `dataset.rename_column(old, new)` calls (the implementation
lives in the external `datasets` library, not in this repository). The
field named `o` is renamed to `n` in place; an example without the field
is left unchanged. -/
def renameField (o n : String) (e : Example) : Example :=
  e.map fun kv => if kv.1 == o then (n, kv.2) else kv

/-- Python dict assignment `e[k] = v`: replace the value in place when the
key is present, otherwise append the new binding at the end. -/
def setField (e : Example) (k v : String) : Example :=
  if e.any fun kv => kv.1 == k then
    e.map fun kv => if kv.1 == k then (k, v) else kv
  else e ++ [(k, v)]

/-- The notebook's `set_column`: `example["taskname"] = 'genqa'`. -/
def set_column (e : Example) : Example :=
  setField e "taskname" "genqa"

/-- The data-preparation cell of the p-tuning notebook: filter on
`category`, rename `instruction → question`, `response → answer`,
`category → taskname`, then map `set_column` over the result, in exactly
the source's order. -/
def transform (xs : List Example) : List Example :=
  ((((xs.filter keepExample).map
      (renameField "instruction" "question")).map
      (renameField "response" "answer")).map
      (renameField "category" "taskname")).map set_column

/-- Keys (field names) of an example, in order. -/
def keysOf (e : Example) : List String :=
  e.map Prod.fst

/-! ## The train/validation split

The notebook computes `int(train_test_split * len(dataset['train']))` with
`train_test_split = 0.9`, a Python float. The IEEE-754 binary64 value of
the literal `0.9` is `8106479329266893 / 2^53`, and for `N < 2^53` the
product `0.9 * N` is the exact rational `8106479329266893 * N / 2^53`
rounded to the nearest binary64 (ties to even). The functions below model
that computation exactly over the natural numbers. -/

/-- Numerator of the IEEE-754 binary64 value of the Python literal `0.9`
over the denominator `2^53`. -/
def float09num : ℕ := 8106479329266893

/-- Fuelled base-2 logarithm: for `0 < n < 2^fuel` it returns the `k` with
`2^k ≤ n < 2^(k+1)`. -/
def log2f : ℕ → ℕ → ℕ
  | 0, _ => 0
  | fuel + 1, n => if 2 ≤ n then log2f fuel (n / 2) + 1 else 0

/-- Round `x / 2^s` to the nearest integer, ties to even: the significand
rounding step of IEEE-754 multiplication. -/
def rnShift (s x : ℕ) : ℕ :=
  let q := x / 2 ^ s
  let r := x % 2 ^ s
  if 2 * r < 2 ^ s then q
  else if 2 * r > 2 ^ s then q + 1
  else if q % 2 = 0 then q else q + 1

/-- Python's `int(0.9 * N)` for `N < 2^53`: form the exact product
`float09num * N / 2^53`, round it to 53 significant bits (nearest, ties to
even), and truncate to an integer. -/
def intTimes09 (N : ℕ) : ℕ :=
  let m := float09num * N
  let k := log2f 200 m
  if k ≤ 52 then m / 2 ^ 53
  else rnShift (k - 52) m * 2 ^ (k - 52) / 2 ^ 53

/-- The train-file write loop: every example whose enumeration index is
`< int(0.9 * N)` goes to `dolly_train.jsonl`, in source order. -/
def trainSplit (xs : List Example) : List Example :=
  ((xs.enum.filter fun p => decide (p.1 < intTimes09 xs.length)).map Prod.snd)

/-- The validation-file write loop: every example whose enumeration index
is `≥ int(0.9 * N)` goes to `dolly_val.jsonl`, in source order. -/
def valSplit (xs : List Example) : List Example :=
  ((xs.enum.filter fun p => decide (intTimes09 xs.length ≤ p.1)).map Prod.snd)

/-! ## Serialization: `json.dumps(item) + "\n"` per example

The notebook writes each example with `f.write(json.dumps(item) + "\n")`.
`json.dumps` with its default arguments emits `{"k": "v", ...}` with
`", "` and `": "` separators and `ensure_ascii=True` escaping: `"` and
`\` and the five short escapes, `\u00xx` for other control characters,
characters `0x20`–`0x7E` literally, `\uxxxx` for other characters of the
basic plane, and a `\ud8xx\udcxx` surrogate pair beyond it. -/

/-- Lowercase hexadecimal digit for `d < 16`. -/
def hexDig (d : ℕ) : Char :=
  Char.ofNat (if d < 10 then 48 + d else 87 + d)

/-- Four lowercase hexadecimal digits of `n < 0x10000`. -/
def hex4 (n : ℕ) : List Char :=
  [hexDig (n / 4096 % 16), hexDig (n / 256 % 16), hexDig (n / 16 % 16),
   hexDig (n % 16)]

/-- Python `json.dumps` escaping of one character (`ensure_ascii=True`). -/
def encodeChar (c : Char) : List Char :=
  if c = '"' then ['\\', '"']
  else if c = '\\' then ['\\', '\\']
  else if c = '\n' then ['\\', 'n']
  else if c = '\t' then ['\\', 't']
  else if c = '\r' then ['\\', 'r']
  else if c = '\x08' then ['\\', 'b']
  else if c = '\x0c' then ['\\', 'f']
  else if 0x20 ≤ c.toNat ∧ c.toNat ≤ 0x7E then [c]
  else if c.toNat < 0x10000 then '\\' :: 'u' :: hex4 c.toNat
  else '\\' :: 'u' :: hex4 (0xD800 + (c.toNat - 0x10000) / 0x400) ++
       '\\' :: 'u' :: hex4 (0xDC00 + (c.toNat - 0x10000) % 0x400)

/-- JSON string literal for `s`: quote, escaped characters, quote. -/
def encodeStr (s : String) : List Char :=
  '"' :: (s.data.map encodeChar).flatten ++ ['"']

/-- One `"key": "value"` member. -/
def encodePair (kv : String × String) : List Char :=
  encodeStr kv.1 ++ ':' :: ' ' :: encodeStr kv.2

/-- Python `json.dumps` on one example (a string-to-string dict). -/
def dumps (e : Example) : List Char :=
  match e with
  | [] => ['{', '}']
  | kv :: rest =>
    '{' :: (encodePair kv ++
      ((rest.map fun p => ',' :: ' ' :: encodePair p).flatten ++ ['}']))

/-- The file content produced by the write loop: each example serialized
on its own `\n`-terminated line. -/
def serializeFile (xs : List Example) : List Char :=
  (xs.map fun e => dumps e ++ ['\n']).flatten

/-! ## Parsing the file back, line by line -/

/-- Value of one hexadecimal digit character. -/
def hexVal (c : Char) : Option ℕ :=
  let n := c.toNat
  if 48 ≤ n ∧ n ≤ 57 then some (n - 48)
  else if 97 ≤ n ∧ n ≤ 102 then some (n - 87)
  else if 65 ≤ n ∧ n ≤ 70 then some (n - 55)
  else none

/-- Prepend a character to the parsed part of a parser result. -/
def consFst (c : Char) :
    Option (List Char × List Char) → Option (List Char × List Char)
  | some (s, r) => some (c :: s, r)
  | none => none

/-- The character denoted by a short escape `\esc`. -/
def escChar (esc : Char) : Option Char :=
  if esc = '"' then some '"'
  else if esc = '\\' then some '\\'
  else if esc = 'n' then some '\n'
  else if esc = 't' then some '\t'
  else if esc = 'r' then some '\r'
  else if esc = 'b' then some '\x08'
  else if esc = 'f' then some '\x0c'
  else none

/-- Parse four hexadecimal digits into their value. -/
def parseU (cs : List Char) : Option (ℕ × List Char) :=
  match cs with
  | a :: b :: c :: d :: rest =>
    (match hexVal a, hexVal b, hexVal c, hexVal d with
     | some x, some y, some z, some w =>
       some (4096 * x + 256 * y + 16 * z + w, rest)
     | _, _, _, _ => none)
  | _ => none

/-- Parse one escape sequence (the backslash already consumed): a short
escape, a `\uxxxx` basic-plane character, or a surrogate pair. -/
def parseEscape (cs : List Char) : Option (Char × List Char) :=
  match cs with
  | [] => none
  | esc :: rest =>
    if esc = 'u' then
      match parseU rest with
      | some (n, rest2) =>
        if 0xD800 ≤ n ∧ n < 0xDC00 then
          match rest2 with
          | s1 :: s2 :: rest3 =>
            if s1 = '\\' ∧ s2 = 'u' then
              match parseU rest3 with
              | some (n2, rest4) =>
                if 0xDC00 ≤ n2 ∧ n2 < 0xE000 then
                  some (Char.ofNat
                    (0x10000 + (n - 0xD800) * 0x400 + (n2 - 0xDC00)), rest4)
                else none
              | none => none
            else none
          | _ => none
        else if 0xDC00 ≤ n ∧ n < 0xE000 then none
        else some (Char.ofNat n, rest2)
      | none => none
    else
      match escChar esc with
      | some c => some (c, rest)
      | none => none

/-- Parse the body of a JSON string literal (the opening quote already
consumed) up to its closing quote, undoing `encodeChar`'s escapes;
returns the decoded characters and the remaining input. The fuel bounds
the number of decoded characters; any fuel beyond that count suffices. -/
def parseStrBody : ℕ → List Char → Option (List Char × List Char)
  | 0, _ => none
  | _, [] => none
  | fuel + 1, c :: rest =>
    if c = '"' then some ([], rest)
    else if c = '\\' then
      match parseEscape rest with
      | some (d, rest2) => consFst d (parseStrBody fuel rest2)
      | none => none
    else consFst c (parseStrBody fuel rest)

/-- Parse a JSON string literal starting at its opening quote (the input
length bounds the decoded length, so it serves as fuel). -/
def parseStr : List Char → Option (List Char × List Char)
  | c :: rest => if c = '"' then parseStrBody (c :: rest).length rest else none
  | [] => none

/-- Parse one `"key": "value"` member. -/
def parsePair (cs : List Char) : Option ((String × String) × List Char) :=
  match parseStr cs with
  | some (k, rest) =>
    match rest with
    | c1 :: c2 :: rest2 =>
      if c1 = ':' ∧ c2 = ' ' then
        match parseStr rest2 with
        | some (v, rest3) => some ((String.mk k, String.mk v), rest3)
        | none => none
      else none
    | _ => none
  | none => none

/-- Parse a nonempty `", "`-separated member list followed by `}`. The
fuel bounds the number of members; any fuel of at least the member count
suffices. -/
def parseMembers : ℕ → List Char → Option (Example × List Char)
  | 0, _ => none
  | fuel + 1, cs =>
    match parsePair cs with
    | some (kv, rest) =>
      match rest with
      | [] => none
      | c :: rest2 =>
        if c = '}' then some ([kv], rest2)
        else if c = ',' then
          match rest2 with
          | c2 :: rest3 =>
            if c2 = ' ' then
              match parseMembers fuel rest3 with
              | some (l, rest4) => some (kv :: l, rest4)
              | none => none
            else none
          | [] => none
        else none
    | none => none

/-- Python `json.loads` on one line, specialized to objects with string
values: the whole line must be one JSON object. -/
def loads (cs : List Char) : Option Example :=
  match cs with
  | '{' :: rest =>
    if rest = ['}'] then some []
    else
      (match parseMembers cs.length rest with
       | some (l, []) => some l
       | _ => none)
  | _ => none

/-- Split file content at `\n` characters (the final `\n`-terminated line
contributes an empty trailing segment). -/
def splitNL : List Char → List (List Char)
  | [] => [[]]
  | c :: rest =>
    if c = '\n' then [] :: splitNL rest
    else
      match splitNL rest with
      | [] => [[c]]
      | l :: ls => (c :: l) :: ls

/-- Read the file back line by line, parsing each line as one JSON
object (the empty segment after the final newline is not a line). -/
def parseFile (cs : List Char) : Option (List Example) :=
  ((splitNL cs).dropLast).mapM loads

/-! ## The configuration assembler

Modelled from the spec: the assembler's documents are hierarchical
mappings (the overridden objects live in the external `omegaconf` library,
not in this repository); `setPath` is the path-qualified assignment
`config.a.b.c = v`, creating intermediate nested mappings as needed. -/

/-- A configuration document: scalar string, scalar number, list, or
nested mapping given as an ordered association list. -/
inductive Doc where
  | str : String → Doc
  | num : ℕ → Doc
  | list : List Doc → Doc
  | map : List (String × Doc) → Doc
deriving Repr

/-- First value bound to `key` in an association list of documents. -/
def getKey : List (String × Doc) → String → Option Doc
  | [], _ => none
  | (k, v) :: rest, key => if k == key then some v else getKey rest key

/-- Bind `key` to `v`: replace the first binding in place when present,
otherwise append a new binding. -/
def setKey : List (String × Doc) → String → Doc → List (String × Doc)
  | [], key, v => [(key, v)]
  | (k, w) :: rest, key, v =>
    if k == key then (key, v) :: rest else (k, w) :: setKey rest key v

/-- Path-qualified assignment `doc.p1.p2...pn = v`: descend along the key
path, creating intermediate nested mappings when a component is absent or
not a mapping, and assign `v` at the end. -/
def setPath : Doc → List String → Doc → Doc
  | _, [], v => v
  | Doc.map kvs, p :: ps, v =>
    Doc.map (setKey kvs p
      (setPath (match getKey kvs p with
                | some c => c
                | none => Doc.map []) ps v))
  | _, p :: ps, v => Doc.map [(p, setPath (Doc.map []) ps v)]

/-- Path-qualified lookup. -/
def getPath : Doc → List String → Option Doc
  | d, [] => some d
  | Doc.map kvs, p :: ps =>
    (match getKey kvs p with
     | some c => getPath c ps
     | none => none)
  | _, _ :: _ => none

/-! ## The initialization script

`scripts/init.sh` guards the clone-and-convert work with
`if [ ! -f /project/models/llama-$LLAMA2_SIZE.nemo ]`. Its observable
state is the target checkpoint file (absent, or present with some
content), and its observable effects are the clone and convert commands
it executes. -/

/-- External commands the guarded branch of `init.sh` executes. -/
inductive InitAction where
  | cloneWeights : InitAction
  | convertWeights : InitAction
deriving DecidableEq, Repr

/-- One run of `init.sh`: given the state of the target `.nemo` file
(`none` when absent, `some c` when present with content `c`) and the
content `conv` the conversion would produce, return the actions executed
and the file state afterwards. -/
def runInit (file : Option γ) (conv : γ) : List InitAction × Option γ :=
  match file with
  | some c => ([], some c)
  | none => ([InitAction.cloneWeights, InitAction.convertWeights], some conv)

/-! ## Helper lemmas: the rounded product `int(0.9 * N)` -/

theorem log2f_spec (fuel : ℕ) : ∀ (n : ℕ), 0 < n → n < 2 ^ fuel →
    2 ^ log2f fuel n ≤ n ∧ n < 2 ^ (log2f fuel n + 1) := by
  induction fuel with
  | zero => intro n h1 h2; omega
  | succ fuel ih =>
    intro n h1 h2
    simp only [log2f]
    by_cases h : 2 ≤ n
    · rw [if_pos h]
      have hdpos : 0 < n / 2 := by omega
      have hdlt : n / 2 < 2 ^ fuel := by
        rw [Nat.div_lt_iff_lt_mul (by norm_num)]
        calc n < 2 ^ (fuel + 1) := h2
        _ = 2 ^ fuel * 2 := by ring
      obtain ⟨ha, hb⟩ := ih (n / 2) hdpos hdlt
      have hmod := Nat.div_add_mod n 2
      have hm2 : n % 2 < 2 := Nat.mod_lt _ (by norm_num)
      constructor
      · calc 2 ^ (log2f fuel (n / 2) + 1) = 2 * 2 ^ log2f fuel (n / 2) := by
              ring
        _ ≤ 2 * (n / 2) := by omega
        _ ≤ n := by omega
      · calc n = 2 * (n / 2) + n % 2 := by omega
        _ < 2 * 2 ^ (log2f fuel (n / 2) + 1) := by omega
        _ = 2 ^ (log2f fuel (n / 2) + 1 + 1) := by ring
    · rw [if_neg h]
      constructor
      · simpa using h1
      · simpa using by omega

theorem div_le_rnShift (s x : ℕ) : x / 2 ^ s ≤ rnShift s x := by
  simp only [rnShift]
  split
  · exact le_rfl
  · split
    · omega
    · split <;> omega

theorem rnShift_mul_le (s x : ℕ) (hs : 0 < s) :
    rnShift s x * 2 ^ s ≤ x + 2 ^ (s - 1) := by
  have hpow : 2 ^ s = 2 * 2 ^ (s - 1) := by
    calc 2 ^ s = 2 ^ (s - 1 + 1) := by rw [Nat.sub_add_cancel hs]
    _ = 2 * 2 ^ (s - 1) := by ring
  have hmod : x / 2 ^ s * 2 ^ s + x % 2 ^ s = x := Nat.div_add_mod' x (2 ^ s)
  have hr : x % 2 ^ s < 2 ^ s := Nat.mod_lt _ (Nat.pos_pow_of_pos _ (by norm_num))
  have key : ∀ hsplit : 2 ^ s ≤ 2 * (x % 2 ^ s),
      (x / 2 ^ s + 1) * 2 ^ s ≤ x + 2 ^ (s - 1) := by
    intro hsplit
    have h1 : (x / 2 ^ s + 1) * 2 ^ s = x / 2 ^ s * 2 ^ s + 2 ^ s := by ring
    have h2 : 2 ^ (s - 1) ≤ x % 2 ^ s := by omega
    linarith
  simp only [rnShift]
  split
  · calc x / 2 ^ s * 2 ^ s ≤ x := Nat.div_mul_le_self x _
    _ ≤ x + 2 ^ (s - 1) := Nat.le_add_right _ _
  · split
    · exact key (by omega)
    · split
      · calc x / 2 ^ s * 2 ^ s ≤ x := Nat.div_mul_le_self x _
        _ ≤ x + 2 ^ (s - 1) := Nat.le_add_right _ _
      · exact key (by omega)

/-- Exact value of the rounded float product: for every `N ≤ 2^49`,
Python's `int(0.9 * N)` agrees with the exact rational `⌊9N/10⌋`. -/
theorem intTimes09_eq (N : ℕ) (hN : N ≤ 2 ^ 49) :
    intTimes09 N = 9 * N / 10 := by
  by_cases hsmall : N ≤ 1
  · interval_cases N <;> decide
  push_neg at hsmall
  simp only [intTimes09]
  set m := float09num * N with hm
  set k := log2f 200 m with hk
  have hc : float09num = 8106479329266893 := rfl
  have hm1 : 2 ^ 53 ≤ m := by
    calc (2 : ℕ) ^ 53 ≤ float09num * 2 := by rw [hc]; norm_num
    _ ≤ float09num * N := Nat.mul_le_mul_left _ hsmall
  have hm2 : m < 2 ^ 102 := by
    calc m = float09num * N := hm
    _ ≤ float09num * 2 ^ 49 := Nat.mul_le_mul_left _ hN
    _ < 2 ^ 53 * 2 ^ 49 := by rw [hc]; norm_num
    _ = 2 ^ 102 := by norm_num
  obtain ⟨hka, hkb⟩ := log2f_spec 200 m (by omega) (by
    calc m < 2 ^ 102 := hm2
    _ < 2 ^ 200 := by norm_num)
  rw [← hk] at hka hkb
  have hk53 : 53 ≤ k := by
    by_contra hcon
    push_neg at hcon
    have : 2 ^ (k + 1) ≤ 2 ^ 53 := Nat.pow_le_pow_right (by norm_num) (by omega)
    omega
  have hk101 : k ≤ 101 := by
    by_contra hcon
    push_neg at hcon
    have : 2 ^ 102 ≤ 2 ^ k := Nat.pow_le_pow_right (by norm_num) (by omega)
    omega
  rw [if_neg (by omega)]
  set s := k - 52 with hs
  have hs1 : 1 ≤ s := by omega
  have hs49 : s ≤ 49 := by omega
  set R := rnShift s m with hR
  set T := R * 2 ^ s / 2 ^ 53 with hT
  set m' := 9 * N / 10 with hm'
  have hdm := Nat.div_add_mod (9 * N) 10
  have hmod10 : 9 * N % 10 < 10 := Nat.mod_lt _ (by norm_num)
  have hprod : 10 * m = 9 * N * 2 ^ 53 + 2 * N := by
    calc 10 * m = 10 * float09num * N := by rw [hm]; ring
    _ = (9 * 2 ^ 53 + 2) * N := by rw [hc]; norm_num
    _ = 9 * N * 2 ^ 53 + 2 * N := by ring
  -- lower bound: m' * 2^53 ≤ m, hence m' ≤ T
  have hlow : m' * 2 ^ 53 ≤ m := by
    have h10 : 10 * (m' * 2 ^ 53) ≤ 10 * m := by
      calc 10 * (m' * 2 ^ 53) = (10 * m') * 2 ^ 53 := by ring
      _ ≤ 9 * N * 2 ^ 53 := Nat.mul_le_mul_right _ (by omega)
      _ ≤ 9 * N * 2 ^ 53 + 2 * N := Nat.le_add_right _ _
      _ = 10 * m := hprod.symm
    omega
  have hTlow : m' ≤ T := by
    rw [hT, Nat.le_div_iff_mul_le (by positivity)]
    have h1 : m' * 2 ^ (53 - s) ≤ m / 2 ^ s := by
      rw [Nat.le_div_iff_mul_le (by positivity)]
      calc m' * 2 ^ (53 - s) * 2 ^ s = m' * 2 ^ 53 := by
            rw [mul_assoc, ← pow_add]
            congr 2
            omega
      _ ≤ m := hlow
    calc m' * 2 ^ 53 = m' * 2 ^ (53 - s) * 2 ^ s := by
          rw [mul_assoc, ← pow_add]
          congr 2
          omega
    _ ≤ m / 2 ^ s * 2 ^ s := Nat.mul_le_mul_right _ (h1.trans (by
          exact Nat.le_refl _))
    _ ≤ R * 2 ^ s := Nat.mul_le_mul_right _ (div_le_rnShift s m)
  -- upper bound: R * 2^s < (m' + 1) * 2^53, hence T ≤ m'
  have hup : R * 2 ^ s < (m' + 1) * 2 ^ 53 := by
    have h1 : R * 2 ^ s ≤ m + 2 ^ (s - 1) := rnShift_mul_le s m hs1
    have h2 : 2 ^ (s - 1) ≤ 2 ^ 48 :=
      Nat.pow_le_pow_right (by norm_num) (by omega)
    have h3 : 10 * ((m' + 1) * 2 ^ 53) ≥ 9 * N * 2 ^ 53 + 2 ^ 53 := by
      calc 10 * ((m' + 1) * 2 ^ 53) = (10 * m' + 10) * 2 ^ 53 := by ring
      _ ≥ (9 * N + 1) * 2 ^ 53 := Nat.mul_le_mul_right _ (by omega)
      _ = 9 * N * 2 ^ 53 + 2 ^ 53 := by ring
    have h48 : (2 : ℕ) ^ 48 = 281474976710656 := by norm_num
    have h49 : (2 : ℕ) ^ 49 = 562949953421312 := by norm_num
    have h53 : (2 : ℕ) ^ 53 = 9007199254740992 := by norm_num
    omega
  have hThigh : T ≤ m' := by
    have : T < m' + 1 := by
      rw [hT, Nat.div_lt_iff_lt_mul (by positivity)]
      omega
    omega
  omega

/-! ## Helper lemmas: the split loops are a take/drop decomposition -/

theorem enumFrom_filter_lt_map {α : Type} (xs : List α) (n T : ℕ) :
    ((List.enumFrom n xs).filter fun p => decide (p.1 < T)).map Prod.snd =
      xs.take (T - n) := by
  induction xs generalizing n with
  | nil => simp [List.enumFrom]
  | cons a tl ih =>
    simp only [List.enumFrom, List.filter]
    by_cases h : n < T
    · have hT : T - n = (T - (n + 1)) + 1 := by omega
      simp only [h, decide_True, List.map_cons, ih, hT, List.take_succ_cons]
    · have hT : T - n = 0 := by omega
      have hT1 : T - (n + 1) = 0 := by omega
      simp only [h, decide_False, ih, hT1, hT, List.take_zero]

theorem enumFrom_filter_ge_map {α : Type} (xs : List α) (n T : ℕ) :
    ((List.enumFrom n xs).filter fun p => decide (T ≤ p.1)).map Prod.snd =
      xs.drop (T - n) := by
  induction xs generalizing n with
  | nil => simp [List.enumFrom]
  | cons a tl ih =>
    simp only [List.enumFrom, List.filter]
    by_cases h : T ≤ n
    · have hT : T - n = 0 := by omega
      have hT1 : T - (n + 1) = 0 := by omega
      simp only [h, decide_True, List.map_cons, ih, hT1, hT, List.drop_zero]
    · have hT : T - n = (T - (n + 1)) + 1 := by omega
      simp only [h, decide_False, ih, hT, List.drop_succ_cons]

theorem trainSplit_eq_take (xs : List Example) :
    trainSplit xs = xs.take (intTimes09 xs.length) := by
  have h := enumFrom_filter_lt_map xs 0 (intTimes09 xs.length)
  simpa [trainSplit, List.enum] using h

theorem valSplit_eq_drop (xs : List Example) :
    valSplit xs = xs.drop (intTimes09 xs.length) := by
  have h := enumFrom_filter_ge_map xs 0 (intTimes09 xs.length)
  simpa [valSplit, List.enum] using h

/-- C5: the train and validation splits partition the input: train is an
initial segment, validation is the matching final segment, their
concatenation is the original sequence in the original order, and the
lengths add up, so no example is dropped, duplicated, or sent to both
files. -/
theorem spec_C5 (xs : List Example) :
    trainSplit xs = xs.take (intTimes09 xs.length) ∧
    valSplit xs = xs.drop (intTimes09 xs.length) ∧
    trainSplit xs ++ valSplit xs = xs ∧
    (trainSplit xs).length + (valSplit xs).length = xs.length := by
  refine ⟨trainSplit_eq_take xs, valSplit_eq_drop xs, ?_, ?_⟩
  · rw [trainSplit_eq_take, valSplit_eq_drop, List.take_append_drop]
  · rw [trainSplit_eq_take, valSplit_eq_drop, List.length_take,
      List.length_drop]
    omega

/-! ## Helper lemmas: characters and hexadecimal digits -/

theorem toNat_ofNat_valid (n : ℕ) (h : Nat.isValidChar n) :
    (Char.ofNat n).toNat = n := by
  unfold Char.ofNat
  rw [dif_pos h]
  rfl

theorem char_toNat_valid (c : Char) : Nat.isValidChar c.toNat := c.valid

theorem char_toNat_lt (c : Char) : c.toNat < 1114112 := by
  rcases char_toNat_valid c with h | ⟨h1, h2⟩
  · omega
  · omega

theorem char_toNat_not_surrogate (c : Char) :
    c.toNat < 55296 ∨ 57343 < c.toNat := by
  rcases char_toNat_valid c with h | ⟨h1, h2⟩
  · exact Or.inl h
  · exact Or.inr h1

theorem char_eq_of_toNat_eq {a b : Char} (h : a.toNat = b.toNat) : a = b := by
  apply Char.ext
  have ha : a.val.toNat = b.val.toNat := h
  exact UInt32.toNat.inj ha

theorem hexDig_toNat (d : ℕ) (h : d < 16) :
    (hexDig d).toNat = if d < 10 then 48 + d else 87 + d := by
  unfold hexDig
  split
  · exact toNat_ofNat_valid _ (Or.inl (by omega))
  · exact toNat_ofNat_valid _ (Or.inl (by omega))

theorem hexVal_hexDig (d : ℕ) (h : d < 16) : hexVal (hexDig d) = some d := by
  have ht := hexDig_toNat d h
  by_cases h10 : d < 10
  · rw [if_pos h10] at ht
    unfold hexVal
    rw [ht, if_pos (by omega)]
    simp only [Option.some.injEq]
    omega
  · rw [if_neg h10] at ht
    unfold hexVal
    rw [ht, if_neg (by omega), if_pos (by omega)]
    simp only [Option.some.injEq]
    omega

theorem parseU_hex4 (v : ℕ) (h : v < 65536) (T : List Char) :
    parseU (hex4 v ++ T) = some (v, T) := by
  have h1 := hexVal_hexDig (v / 4096 % 16) (by omega)
  have h2 := hexVal_hexDig (v / 256 % 16) (by omega)
  have h3 := hexVal_hexDig (v / 16 % 16) (by omega)
  have h4 := hexVal_hexDig (v % 16) (by omega)
  simp only [hex4, List.cons_append, List.nil_append, parseU, h1, h2, h3, h4,
    Option.some.injEq, Prod.mk.injEq]
  constructor
  · omega
  · trivial

theorem parseEscape_pair (c : Char) (T : List Char)
    (hbmp : ¬ c.toNat < 0x10000) :
    parseEscape ('u' ::
      (hex4 (0xD800 + (c.toNat - 0x10000) / 0x400) ++ '\\' :: 'u' ::
        (hex4 (0xDC00 + (c.toNat - 0x10000) % 0x400) ++ T))) =
      some (c, T) := by
  have hlt := char_toNat_lt c
  have hn1 : 55296 + (c.toNat - 65536) / 1024 < 65536 := by omega
  have hn2 : 56320 + (c.toNat - 65536) % 1024 < 65536 := by omega
  have hu1 := parseU_hex4 (55296 + (c.toNat - 65536) / 1024) hn1
    ('\\' :: 'u' :: (hex4 (56320 + (c.toNat - 65536) % 1024) ++ T))
  have hu2 := parseU_hex4 (56320 + (c.toNat - 65536) % 1024) hn2 T
  have hs1 : 55296 ≤ 55296 + (c.toNat - 65536) / 1024 ∧
      55296 + (c.toNat - 65536) / 1024 < 56320 := by omega
  have hs2 : 56320 ≤ 56320 + (c.toNat - 65536) % 1024 ∧
      56320 + (c.toNat - 65536) % 1024 < 57344 := by omega
  simp [parseEscape, hu1, hu2, hs1, hs2]
  have harith : 65536 + (c.toNat - 65536) / 1024 * 1024 +
      (c.toNat - 65536) % 1024 = c.toNat := by omega
  rw [harith, Char.ofNat_toNat]

theorem parseStrBody_encodeChar (c : Char) (T : List Char) (fuel : ℕ) :
    parseStrBody (fuel + 1) (encodeChar c ++ T) =
      consFst c (parseStrBody fuel T) := by
  by_cases hq : c = '"'
  · subst hq; simp [encodeChar, parseStrBody, parseEscape, escChar]
  by_cases hb : c = '\\'
  · subst hb; simp [encodeChar, parseStrBody, parseEscape, escChar]
  by_cases hn : c = '\n'
  · subst hn; simp [encodeChar, parseStrBody, parseEscape, escChar]
  by_cases ht : c = '\t'
  · subst ht; simp [encodeChar, parseStrBody, parseEscape, escChar]
  by_cases hr : c = '\r'
  · subst hr; simp [encodeChar, parseStrBody, parseEscape, escChar]
  by_cases h8 : c = '\x08'
  · subst h8; simp [encodeChar, parseStrBody, parseEscape, escChar]
  by_cases h12 : c = '\x0c'
  · subst h12; simp [encodeChar, parseStrBody, parseEscape, escChar]
  by_cases hpr : 0x20 ≤ c.toNat ∧ c.toNat ≤ 0x7E
  · simp [encodeChar, hq, hb, hn, ht, hr, h8, h12, hpr, parseStrBody]
  by_cases hbmp : c.toNat < 0x10000
  · have hval := char_toNat_not_surrogate c
    have hesc : parseEscape ('u' :: (hex4 c.toNat ++ T)) = some (c, T) := by
      have h65 : c.toNat < 65536 := hbmp
      have hu := parseU_hex4 c.toNat h65 T
      have hs1 : ¬(55296 ≤ c.toNat ∧ c.toNat < 56320) := by omega
      have hs2 : ¬(56320 ≤ c.toNat ∧ c.toNat < 57344) := by omega
      simp [parseEscape, hu, hs1, hs2, Char.ofNat_toNat]
    simp [encodeChar, hq, hb, hn, ht, hr, h8, h12, hpr, hbmp, parseStrBody,
      hesc]
  · simp only [encodeChar, if_neg hq, if_neg hb, if_neg hn, if_neg ht,
      if_neg hr, if_neg h8, if_neg h12, if_neg hpr, if_neg hbmp]
    simp only [List.cons_append, List.append_assoc]
    rw [parseStrBody]
    rw [if_neg (show ¬('\\' : Char) = '"' by decide),
      if_pos (show ('\\' : Char) = '\\' from rfl)]
    rw [parseEscape_pair c T hbmp]

theorem encodeChar_length_pos (c : Char) : 1 ≤ (encodeChar c).length := by
  unfold encodeChar
  split_ifs <;> simp [hex4]

theorem flatten_encode_length (s : List Char) :
    s.length ≤ ((s.map encodeChar).flatten).length := by
  induction s with
  | nil => simp
  | cons c s ih =>
    simp only [List.map_cons, List.flatten_cons, List.length_append,
      List.length_cons]
    have := encodeChar_length_pos c
    omega

theorem parseStrBody_encode (s : List Char) :
    ∀ (fuel : ℕ) (rest : List Char), s.length < fuel →
      parseStrBody fuel ((s.map encodeChar).flatten ++ '"' :: rest) =
        some (s, rest) := by
  induction s with
  | nil =>
    intro fuel rest h
    cases fuel with
    | zero => omega
    | succ fuel => simp [parseStrBody]
  | cons c s ih =>
    intro fuel rest h
    cases fuel with
    | zero => omega
    | succ fuel =>
      have h2 : s.length < fuel := by
        simp only [List.length_cons] at h
        omega
      simp only [List.map_cons, List.flatten_cons, List.append_assoc]
      rw [parseStrBody_encodeChar, ih fuel rest h2]
      rfl

theorem stringMk_data (s : String) : String.mk s.data = s := rfl

theorem parseStr_encodeStr (s : String) (tail : List Char) :
    parseStr (encodeStr s ++ tail) = some (s.data, tail) := by
  have hb := flatten_encode_length s.data
  simp only [encodeStr, List.cons_append, List.append_assoc,
    List.singleton_append]
  rw [parseStr, if_pos rfl]
  apply parseStrBody_encode
  simp only [List.length_cons, List.length_append]
  omega

theorem parsePair_encodePair (kv : String × String) (tail : List Char) :
    parsePair (encodePair kv ++ tail) = some (kv, tail) := by
  obtain ⟨k, v⟩ := kv
  simp only [encodePair, List.append_assoc, List.cons_append]
  rw [parsePair, parseStr_encodeStr k (':' :: ' ' :: (encodeStr v ++ tail))]
  simp [parseStr_encodeStr v tail, stringMk_data]

theorem parseMembers_encode (l : List (String × String)) :
    ∀ (kv : String × String) (fuel : ℕ) (rest : List Char), l.length < fuel →
      parseMembers fuel (encodePair kv ++
          (((l.map fun p => ',' :: ' ' :: encodePair p).flatten) ++
            '}' :: rest)) =
        some (kv :: l, rest) := by
  induction l with
  | nil =>
    intro kv fuel rest h
    cases fuel with
    | zero => omega
    | succ fuel =>
      rw [parseMembers]
      rw [show (List.map (fun p => ',' :: ' ' :: encodePair p) []).flatten ++
        '}' :: rest = '}' :: rest from rfl]
      rw [parsePair_encodePair kv ('}' :: rest)]
      simp
  | cons p l ih =>
    intro kv fuel rest h
    cases fuel with
    | zero => omega
    | succ fuel =>
      have h2 : l.length < fuel := by
        simp only [List.length_cons] at h
        omega
      rw [parseMembers]
      simp only [List.map_cons, List.flatten_cons, List.append_assoc,
        List.cons_append]
      rw [parsePair_encodePair kv
        (',' :: ' ' :: (encodePair p ++
          ((l.map fun q => ',' :: ' ' :: encodePair q).flatten ++
            '}' :: rest)))]
      simp only [reduceIte]
      rw [if_neg (show ¬(',' : Char) = '}' by decide)]
      rw [ih p fuel rest h2]

theorem members_flatten_length (l : List (String × String)) :
    l.length ≤ ((l.map fun p => ',' :: ' ' :: encodePair p).flatten).length := by
  induction l with
  | nil => simp
  | cons p l ih =>
    simp only [List.map_cons, List.flatten_cons, List.length_append,
      List.length_cons]
    omega

theorem loads_dumps (e : Example) : loads (dumps e) = some e := by
  cases e with
  | nil => rfl
  | cons kv l =>
    have hflat := members_flatten_length l
    rw [show dumps (kv :: l) = '{' :: (encodePair kv ++
      ((l.map fun p => ',' :: ' ' :: encodePair p).flatten ++ ['}']))
      from rfl]
    rw [loads]
    have hpair : 2 ≤ (encodePair kv).length := by
      simp only [encodePair, encodeStr, List.length_append, List.length_cons]
      omega
    rw [if_neg (by
      intro hcon
      have := congrArg List.length hcon
      simp only [List.length_append, List.length_cons,
        List.length_singleton] at this
      omega)]
    have hlen : l.length < ('{' :: (encodePair kv ++
        ((l.map fun p => ',' :: ' ' :: encodePair p).flatten ++
          ['}']))).length := by
      simp only [List.length_cons, List.length_append]
      omega
    rw [parseMembers_encode l kv _ [] hlen]

theorem nl_toNat : ('\n' : Char).toNat = 10 := rfl

theorem hexDig_ne_nl (d : ℕ) (h : d < 16) : ¬ ('\n' = hexDig d) := by
  intro he
  have ht := hexDig_toNat d h
  rw [← he, nl_toNat] at ht
  split at ht <;> omega

theorem encodeChar_no_nl (c : Char) : '\n' ∉ encodeChar c := by
  intro hmem
  unfold encodeChar at hmem
  split_ifs at hmem with h1 h2 h3 h4 h5 h6 h7 h8 h9
  · simp at hmem
  · simp at hmem
  · simp at hmem
  · simp at hmem
  · simp at hmem
  · simp at hmem
  · simp at hmem
  · simp only [List.mem_singleton] at hmem
    rw [hmem] at h3
    exact h3 rfl
  · have k1 := hexDig_ne_nl (c.toNat / 4096 % 16) (by omega)
    have k2 := hexDig_ne_nl (c.toNat / 256 % 16) (by omega)
    have k3 := hexDig_ne_nl (c.toNat / 16 % 16) (by omega)
    have k4 := hexDig_ne_nl (c.toNat % 16) (by omega)
    simp [hex4] at hmem
    rcases hmem with h | h | h | h <;> [exact k1 h; exact k2 h; exact k3 h;
      exact k4 h]
  · have k1 := hexDig_ne_nl ((55296 + (c.toNat - 65536) / 1024) / 4096 % 16)
      (by omega)
    have k2 := hexDig_ne_nl ((55296 + (c.toNat - 65536) / 1024) / 256 % 16)
      (by omega)
    have k3 := hexDig_ne_nl ((55296 + (c.toNat - 65536) / 1024) / 16 % 16)
      (by omega)
    have k4 := hexDig_ne_nl ((55296 + (c.toNat - 65536) / 1024) % 16)
      (by omega)
    have k5 := hexDig_ne_nl ((56320 + (c.toNat - 65536) % 1024) / 4096 % 16)
      (by omega)
    have k6 := hexDig_ne_nl ((56320 + (c.toNat - 65536) % 1024) / 256 % 16)
      (by omega)
    have k7 := hexDig_ne_nl ((56320 + (c.toNat - 65536) % 1024) / 16 % 16)
      (by omega)
    have k8 := hexDig_ne_nl ((56320 + (c.toNat - 65536) % 1024) % 16)
      (by omega)
    simp [hex4] at hmem
    rcases hmem with h | h | h | h | h | h | h | h <;>
      [exact k1 h; exact k2 h; exact k3 h; exact k4 h; exact k5 h; exact k6 h;
        exact k7 h; exact k8 h]

theorem no_nl_append {a b : List Char} (ha : '\n' ∉ a) (hb : '\n' ∉ b) :
    '\n' ∉ a ++ b := by
  intro h
  rcases List.mem_append.mp h with h | h
  · exact ha h
  · exact hb h

theorem no_nl_cons {c : Char} {a : List Char} (hc : ('\n' : Char) ≠ c)
    (ha : '\n' ∉ a) : '\n' ∉ c :: a := by
  intro h
  rcases List.mem_cons.mp h with h | h
  · exact hc h
  · exact ha h

theorem no_nl_flatten {L : List (List Char)} (h : ∀ x ∈ L, '\n' ∉ x) :
    '\n' ∉ L.flatten := by
  intro hm
  obtain ⟨part, hp, hin⟩ := List.mem_flatten.mp hm
  exact h part hp hin

theorem encodeStr_no_nl (s : String) : '\n' ∉ encodeStr s := by
  unfold encodeStr
  apply no_nl_cons (by decide)
  apply no_nl_append
  · apply no_nl_flatten
    intro x hx
    obtain ⟨c, _, rfl⟩ := List.mem_map.mp hx
    exact encodeChar_no_nl c
  · decide

theorem encodePair_no_nl (kv : String × String) : '\n' ∉ encodePair kv := by
  unfold encodePair
  apply no_nl_append (encodeStr_no_nl kv.1)
  apply no_nl_cons (by decide)
  apply no_nl_cons (by decide)
  exact encodeStr_no_nl kv.2

theorem dumps_no_nl (e : Example) : '\n' ∉ dumps e := by
  cases e with
  | nil => decide
  | cons kv l =>
    rw [show dumps (kv :: l) = '{' :: (encodePair kv ++
      ((l.map fun p => ',' :: ' ' :: encodePair p).flatten ++ ['}']))
      from rfl]
    apply no_nl_cons (by decide)
    apply no_nl_append (encodePair_no_nl kv)
    apply no_nl_append
    · apply no_nl_flatten
      intro x hx
      obtain ⟨p, _, rfl⟩ := List.mem_map.mp hx
      apply no_nl_cons (by decide)
      apply no_nl_cons (by decide)
      exact encodePair_no_nl p
    · decide

theorem splitNL_ne_nil (cs : List Char) : splitNL cs ≠ [] := by
  cases cs with
  | nil => simp [splitNL]
  | cons c rest =>
    rw [splitNL]
    split
    · simp
    · split <;> simp

theorem splitNL_append (d : List Char) (rest : List Char) (h : '\n' ∉ d) :
    splitNL (d ++ '\n' :: rest) = d :: splitNL rest := by
  induction d with
  | nil => simp [splitNL]
  | cons c d ih =>
    have hc : ¬ c = '\n' := fun he =>
      h (he ▸ List.mem_cons_self c d)
    have hd : '\n' ∉ d := fun hm => h (List.mem_cons_of_mem c hm)
    rw [List.cons_append, splitNL, if_neg hc, ih hd]

/-! ## Helper lemmas: the nested-document patcher -/

theorem getKey_setKey (kvs : List (String × Doc)) (k : String) (v : Doc) :
    getKey (setKey kvs k v) k = some v := by
  induction kvs with
  | nil => simp [getKey, setKey]
  | cons kv rest ih =>
    obtain ⟨k1, w⟩ := kv
    by_cases h : k1 = k
    · simp [setKey, getKey, h]
    · simp [setKey, getKey, h, ih]

theorem setKey_setKey (kvs : List (String × Doc)) (k : String) (a b : Doc) :
    setKey (setKey kvs k a) k b = setKey kvs k b := by
  induction kvs with
  | nil => simp [setKey]
  | cons kv rest ih =>
    obtain ⟨k1, w⟩ := kv
    by_cases h : k1 = k
    · simp [setKey, h]
    · simp [setKey, h, ih]

theorem getPath_setPath (ks : List String) (d v : Doc) :
    getPath (setPath d ks v) ks = some v := by
  induction ks generalizing d with
  | nil => cases d <;> simp [setPath, getPath]
  | cons p ps ih =>
    cases d with
    | map kvs => simp [setPath, getPath, getKey_setKey, ih]
    | str s => simp [setPath, getPath, getKey, ih]
    | num x => simp [setPath, getPath, getKey, ih]
    | list l => simp [setPath, getPath, getKey, ih]

/-! ## Claim theorems -/

/-- A concrete example row used as a witness input. -/
def sampleRow : Example := [("taskname", "genqa")]

/-- C1 (amended): for every input example sequence of length `N ≤ 2^49`
(every physically realizable dataset), the split takes exactly the first
`⌊0.9·N⌋` examples in source order as train and the remainder as
validation, with `len(train) = ⌊0.9·N⌋` and
`len(train) + len(validation) = N`. For larger `N` the floating-point
product `0.9*N` can truncate to a different integer (see the
counterexample), so the unbounded claim fails. -/
theorem spec_C1 (xs : List Example) (h : xs.length ≤ 2 ^ 49) :
    trainSplit xs = xs.take (9 * xs.length / 10) ∧
    valSplit xs = xs.drop (9 * xs.length / 10) ∧
    (trainSplit xs).length = 9 * xs.length / 10 ∧
    (trainSplit xs).length + (valSplit xs).length = xs.length := by
  have he := intTimes09_eq xs.length h
  have h1 := trainSplit_eq_take xs
  have h2 := valSplit_eq_drop xs
  rw [he] at h1 h2
  refine ⟨h1, h2, ?_, ?_⟩
  · rw [h1, List.length_take]
    have hle : 9 * xs.length / 10 ≤ xs.length := by omega
    omega
  · rw [h1, h2, List.length_take, List.length_drop]
    omega

/-- C1 witness: the amended theorem applied to a concrete sequence of ten
examples, split 9 / 1. -/
theorem spec_C1_witness :
    (List.replicate 10 sampleRow).length ≤ 2 ^ 49 ∧
    (trainSplit (List.replicate 10 sampleRow) =
        (List.replicate 10 sampleRow).take
          (9 * (List.replicate 10 sampleRow).length / 10) ∧
      valSplit (List.replicate 10 sampleRow) =
        (List.replicate 10 sampleRow).drop
          (9 * (List.replicate 10 sampleRow).length / 10) ∧
      (trainSplit (List.replicate 10 sampleRow)).length =
        9 * (List.replicate 10 sampleRow).length / 10 ∧
      (trainSplit (List.replicate 10 sampleRow)).length +
          (valSplit (List.replicate 10 sampleRow)).length =
        (List.replicate 10 sampleRow).length) :=
  ⟨by decide, spec_C1 (List.replicate 10 sampleRow) (by decide)⟩

/-- C1 counterexample: at the concrete length `N = 2251799813685251` the
binary64 product `0.9 * N` rounds up across an integer boundary, so the
code writes `2026619832316726` examples to the train file while
`⌊0.9·N⌋ = 2026619832316725`: the claim's `len(train) = floor(r*N)` fails
for this input sequence. -/
theorem spec_C1_cex :
    (trainSplit (List.replicate 2251799813685251 sampleRow)).length ≠
      9 * (List.replicate 2251799813685251 sampleRow).length / 10 := by
  rw [trainSplit_eq_take, List.length_take, List.length_replicate]
  have h : intTimes09 2251799813685251 = 2026619832316726 := by
    set_option maxRecDepth 10000 in decide
  rw [h]
  have hmin : min 2026619832316726 2251799813685251 = 2026619832316726 := by
    norm_num
  rw [hmin]
  omega

/-- C8: serializing an example sequence to the file format (one JSON
object per `\n`-terminated line) and parsing the file back line by line
recovers the original sequence, in the original order, for every sequence
of string-valued examples. -/
theorem spec_C8 (xs : List Example) :
    parseFile (serializeFile xs) = some xs := by
  induction xs with
  | nil => rfl
  | cons e xs ih =>
    rw [show serializeFile (e :: xs) =
      dumps e ++ '\n' :: serializeFile xs from by
        simp [serializeFile]]
    unfold parseFile
    rw [splitNL_append _ _ (dumps_no_nl e),
      List.dropLast_cons_of_ne_nil (splitNL_ne_nil _),
      List.mapM_cons, loads_dumps]
    unfold parseFile at ih
    rw [ih]
    rfl

/-- C2 (amended): the transform's filter keeps exactly those examples
whose `category` field value starts with the string `"closed_qa"`
(Python's `str.startswith`), not only those equal to it; examples whose
`category` does not start with `"closed_qa"` are removed. -/
theorem spec_C2 (xs : List Example) (e : Example) :
    e ∈ xs.filter keepExample ↔
      e ∈ xs ∧ ∃ v, List.lookup "category" e = some v ∧
        pyStartsWith v "closed_qa" = true := by
  rw [List.mem_filter]
  refine and_congr_right fun _ => ?_
  constructor
  · intro hk
    unfold keepExample at hk
    cases hlk : List.lookup "category" e with
    | none => rw [hlk] at hk; exact absurd hk (by simp)
    | some v => rw [hlk] at hk; exact ⟨v, rfl, hk⟩
  · rintro ⟨v, hlk, hv⟩
    unfold keepExample
    rw [hlk]
    exact hv

/-- C2 counterexample: the example with `category = "closed_qa2"` — a
string different from `"closed_qa"` — survives the code's filter, so the
claim that no example with another `category` value appears in the output
is false. -/
theorem spec_C2_cex :
    ([[("category", "closed_qa2")]] : List Example).filter keepExample =
        [[("category", "closed_qa2")]] ∧
      ("closed_qa2" : String) ≠ "closed_qa" := by
  constructor
  · decide
  · decide

/-- C3: a field rename whose old key is absent from an example leaves that
example unchanged and raises no error; on a heterogeneous sequence the
rename therefore succeeds, touching only the examples that carry the
field. -/
theorem spec_C3 (e : Example) (o n : String) (h : ∀ kv ∈ e, kv.1 ≠ o) :
    renameField o n e = e := by
  unfold renameField
  induction e with
  | nil => rfl
  | cons kv rest ih =>
    have h1 : kv.1 ≠ o := h kv (List.mem_cons_self kv rest)
    have h2 : ∀ kv' ∈ rest, kv'.1 ≠ o := fun kv' hm =>
      h kv' (List.mem_cons_of_mem kv hm)
    simp only [List.map_cons]
    rw [ih h2, if_neg (by simp [h1])]

/-- C3 witness: renaming `instruction` in an example that has no
`instruction` field is the identity. -/
theorem spec_C3_witness :
    (∀ kv ∈ ([("context", "c")] : Example), kv.1 ≠ "instruction") ∧
      renameField "instruction" "question" [("context", "c")] =
        [("context", "c")] :=
  ⟨by decide, spec_C3 [("context", "c")] "instruction" "question" (by decide)⟩

/-- C4: the transform applies filter, then the renames, then the constant
injection, in the source's fixed order, with the filter reading the
pre-rename `category` field; every example of the dataset schema
`{instruction, context, response, category}` that survives the pipeline
has exactly the keys `{question, context, answer, taskname}` and
`taskname = "genqa"`, whatever its original `category` value was. -/
theorem spec_C4 (xs : List Example)
    (hschema : ∀ e ∈ xs,
      keysOf e = ["instruction", "context", "response", "category"]) :
    ∀ e ∈ transform xs,
      keysOf e = ["question", "context", "answer", "taskname"] ∧
        List.lookup "taskname" e = some "genqa" := by
  intro e he
  simp only [transform, List.mem_map] at he
  obtain ⟨e3, ⟨e2, ⟨e1, ⟨e0, he0, rfl⟩, rfl⟩, rfl⟩, rfl⟩ := he
  have he0x : e0 ∈ xs := (List.mem_filter.mp he0).1
  have hk := hschema e0 he0x
  rcases e0 with _ | ⟨⟨k1, v1⟩, _ | ⟨⟨k2, v2⟩, _ | ⟨⟨k3, v3⟩, _ | ⟨⟨k4, v4⟩, rest⟩⟩⟩⟩ <;>
    simp only [keysOf, List.map_cons, List.map_nil, List.cons.injEq,
      List.map_eq_nil_iff, reduceCtorEq, and_false, false_and] at hk
  obtain ⟨hk1, hk2, hk3, hk4, hrest⟩ := hk
  subst hk1 hk2 hk3 hk4 hrest
  simp [renameField, set_column, setField, keysOf, List.lookup]

/-- C4 witness: the spec's scenario row survives with the four renamed
keys and the injected `taskname`. -/
theorem spec_C4_witness :
    (∀ e ∈ ([[("instruction", "i"), ("context", "c"), ("response", "r"),
        ("category", "closed_qa")]] : List Example),
      keysOf e = ["instruction", "context", "response", "category"]) ∧
    (keysOf [("question", "i"), ("context", "c"), ("answer", "r"),
        ("taskname", "genqa")] =
      ["question", "context", "answer", "taskname"] ∧
      List.lookup "taskname"
          ([("question", "i"), ("context", "c"), ("answer", "r"),
            ("taskname", "genqa")] : Example) = some "genqa") :=
  ⟨by decide,
    spec_C4 [[("instruction", "i"), ("context", "c"), ("response", "r"),
      ("category", "closed_qa")]] (by decide)
      [("question", "i"), ("context", "c"), ("answer", "r"),
        ("taskname", "genqa")] (by decide)⟩

/-- C6: the assembler's override assigns the value at the dotted key path,
creating intermediate nested mappings as needed; in particular the spec's
example template `{model: {precision: 16}}` with the two overrides
becomes `{model: {precision: 32, data: {train_ds: {file_names:
["a.jsonl"]}}}}` instead of failing on the missing `model.data` node. -/
theorem spec_C6 :
    (∀ (d : Doc) (ks : List String) (v : Doc),
      getPath (setPath d ks v) ks = some v) ∧
    setPath
        (setPath (Doc.map [("model", Doc.map [("precision", Doc.num 16)])])
          ["model", "precision"] (Doc.num 32))
        ["model", "data", "train_ds", "file_names"]
        (Doc.list [Doc.str "a.jsonl"]) =
      Doc.map [("model", Doc.map [("precision", Doc.num 32),
        ("data", Doc.map [("train_ds",
          Doc.map [("file_names", Doc.list [Doc.str "a.jsonl"])])])])] :=
  ⟨fun d ks v => getPath_setPath ks d v, rfl⟩

/-- C7: overriding the same key path twice is last-write-wins — applying
`(k, v1)` and then `(k, v2)` yields exactly the document obtained by
applying `(k, v2)` alone, with no error for the redundant earlier
override. -/
theorem spec_C7 (d : Doc) (ks : List String) (v1 v2 : Doc) :
    setPath (setPath d ks v1) ks v2 = setPath d ks v2 := by
  induction ks generalizing d with
  | nil => cases d <;> simp [setPath]
  | cons p ps ih =>
    cases d <;>
      simp [setPath, getKey, setKey, getKey_setKey, setKey_setKey, ih]

/-- C9: when nothing survives the filter, the preparer still succeeds:
the transform result is empty, both splits are empty, and both
serialized files are empty. -/
theorem spec_C9 (xs : List Example) (h : xs.filter keepExample = []) :
    transform xs = [] ∧
    trainSplit (transform xs) = [] ∧
    valSplit (transform xs) = [] ∧
    serializeFile (trainSplit (transform xs)) = [] ∧
    serializeFile (valSplit (transform xs)) = [] := by
  have ht : transform xs = [] := by simp [transform, h]
  rw [ht]
  exact ⟨rfl, rfl, rfl, rfl, rfl⟩

/-- C9 witness: a sequence with one non-matching example filters to
nothing and yields two empty files. -/
theorem spec_C9_witness :
    ([[("category", "open_qa")]] : List Example).filter keepExample = [] ∧
    (transform [[("category", "open_qa")]] = [] ∧
      trainSplit (transform [[("category", "open_qa")]]) = [] ∧
      valSplit (transform [[("category", "open_qa")]]) = [] ∧
      serializeFile (trainSplit (transform [[("category", "open_qa")]])) = [] ∧
      serializeFile (valSplit (transform [[("category", "open_qa")]])) = []) :=
  ⟨by decide, spec_C9 [[("category", "open_qa")]] (by decide)⟩

/-- C10: when the target checkpoint file exists, `init.sh` executes
neither the clone nor the conversion and leaves the file unchanged; the
clone-and-convert branch runs only when the file is absent; and re-running
the script after any run is a no-op that preserves the file. -/
theorem spec_C10 :
    (∀ (γ : Type) (c conv : γ), runInit (some c) conv = ([], some c)) ∧
    (∀ (γ : Type) (conv : γ),
      runInit (none : Option γ) conv =
        ([InitAction.cloneWeights, InitAction.convertWeights], some conv)) ∧
    (∀ (γ : Type) (file : Option γ) (conv conv2 : γ),
      runInit (runInit file conv).2 conv2 = ([], (runInit file conv).2)) := by
  refine ⟨fun γ c conv => rfl, fun γ conv => rfl, ?_⟩
  rintro γ (_ | c) conv conv2 <;> rfl

end Llama2FT
